import Mathlib

/-!
Verification of the desim discrete-event simulation engine (src/lib.rs,
src/resources.rs) against its natural-language specification.

The embedding models:
* `Effect`, `Event`, `SimState` (as an explicit dictionary `SimStateOps`),
  `SimpleResource`, `Simulation`, `EndCondition` from the source;
* the future-event queue as Rust's `std::collections::BinaryHeap` over
  `Reverse<Event<T>>`: `push` appends and sifts up, `pop` swaps the last
  element to the root and runs `sift_down_to_bottom` (descend along the
  greater child to the bottom, then sift up), exactly as in the Rust
  standard library used by the crate.  The hole optimization of the Rust
  code is modelled by element swaps, which compute the same array.
* process generators (`dyn Generator<SimContext<T>, Yield = T, Return = ()>`)
  as deterministic functions from the history of resume contexts to
  `Yielded`/`Complete`;
* `f64` simulation time as `ℤ` (a linear order with addition and no NaN;
  the claims exercise only comparison and addition of times, and every
  concrete instant they mention is an integer, where `f64` arithmetic is
  exact);
* Rust panics (`expect`, `assert!`, out-of-bounds indexing) as `Except.error`.
-/

namespace Desim

/-- Simulation time: `f64` in the source, embedded as `ℤ`.  The claims use
only the ordering and addition of times at integer instants, where `f64` is
exact; `NaN` (whose comparison panics in `impl Ord for Event`) has no
counterpart, matching the spec's assumption that times are totally
ordered. -/
abbrev Time := Int

/-- `pub type ProcessId = usize;` -/
abbrev ProcessId := Nat

/-- `pub type ResourceId = usize;` -/
abbrev ResourceId := Nat

/-- The `Effect` enum of src/lib.rs (variants in source order). -/
inductive Effect where
  | timeOut (time : Time)
  | event (time : Time) (process : ProcessId)
  | request (resource : ResourceId)
  | release (resource : ResourceId)
  | wait
  | trace
deriving DecidableEq, Inhabited

/-- `Event<T>` of src/lib.rs: `{ time: f64, process: ProcessId, state: T }`. -/
structure Event (T : Type) where
  time : Time
  process : ProcessId
  state : T
deriving DecidableEq, Inhabited

/-- The `SimState` trait of src/lib.rs, as an explicit method dictionary. -/
structure SimStateOps (T : Type) where
  get_effect : T → Effect
  set_effect : T → Effect → T
  should_log : T → Bool

/-- `impl SimState for Effect` of src/lib.rs: `get_effect` returns the value
itself, `set_effect` overwrites it, `should_log` is constantly `true`. -/
def simStateEffectOps : SimStateOps Effect where
  get_effect := fun e => e
  set_effect := fun _ e => e
  should_log := fun _ => true

/-- `SimContext<T>` of src/lib.rs. -/
structure SimContext (T : Type) where
  time : Time
  state : T

/-- Result of resuming a generator: `GeneratorState<T, ()>`. -/
inductive GenState (T : Type) where
  | yielded (value : T)
  | complete

/-- A process generator, modelled as a deterministic function from the whole
history of `resume` arguments to the outcome of the latest resume.  Every
deterministic Rust generator is captured by such a function. -/
def ProcessFn (T : Type) : Type := List (SimContext T) → GenState T

/-! ### Rust `std::collections::BinaryHeap`

The crate stores `Reverse<Event<T>>` in a `BinaryHeap`, a max-heap whose
comparisons on `Reverse` wrappers reverse the `Event` order (`Event` is
ordered by `time` alone, `impl Ord for Event`, panicking on NaN).  The
functions below are the Rust standard library algorithms: `push` appends and
calls `sift_up(0, old_len)`; `pop` removes the last element, swaps it with
the root and calls `sift_down_to_bottom(0)`.  `le x y` means `x <= y` in the
heap's (max-)order. -/

/-- Backing array of a `BinaryHeap`: a length plus an index function
(positions `≥ size` are junk that the algorithms never read). -/
structure RustHeap (E : Type) where
  size : Nat
  data : Nat → E

/-- Parent index in the implicit binary tree of the array. -/
def parentIdx (c : Nat) : Nat := (c - 1) / 2

/-- Swap two positions of the backing array. -/
def swp {E : Type} (a : Nat → E) (i j : Nat) : Nat → E :=
  fun k => if k = i then a j else if k = j then a i else a k

/-- Rust `BinaryHeap::sift_up(start = 0, pos)`, hole modelled by swaps.
The first `Nat` is fuel; `fuel = pos` always suffices because the position
strictly decreases. -/
def siftUpF {E : Type} (le : E → E → Bool) : Nat → (Nat → E) → Nat → (Nat → E)
  | 0, a, _ => a
  | fuel + 1, a, pos =>
    if pos = 0 then a
    else
      let parent := parentIdx pos
      if le (a pos) (a parent) then a
      else siftUpF le fuel (swp a pos parent) parent

/-- The loop of Rust `BinaryHeap::sift_down_to_bottom`: move the hole down
along the greater child (ties pick the right child, from
`child += (get(child) <= get(child+1)) as usize`) while both children exist.
Returns the array and the final hole position.  Fuel `end_` suffices. -/
def siftDownLoop {E : Type} (le : E → E → Bool) (end_ : Nat) :
    Nat → (Nat → E) → Nat → ((Nat → E) × Nat)
  | 0, a, pos => (a, pos)
  | fuel + 1, a, pos =>
    let child := 2 * pos + 1
    if child < end_ - 1 then
      let child := if le (a child) (a (child + 1)) then child + 1 else child
      siftDownLoop le end_ fuel (swp a pos child) child
    else (a, pos)

/-- Rust `BinaryHeap::sift_down_to_bottom(pos = 0)`: descend to the bottom,
take the last single child if present, then `sift_up(0, pos)`. -/
def siftDownToBottom {E : Type} (le : E → E → Bool) (end_ : Nat)
    (a : Nat → E) : Nat → E :=
  let ap := siftDownLoop le end_ end_ a 0
  let child := 2 * ap.2 + 1
  let ap2 := if child = end_ - 1 then (swp ap.1 ap.2 child, child) else ap
  siftUpF le ap2.2 ap2.1 ap2.2

/-- Rust `BinaryHeap::push`: append at the end, then `sift_up(0, old_len)`. -/
def heapPush {E : Type} (le : E → E → Bool) (h : RustHeap E) (x : E) :
    RustHeap E :=
  let n := h.size
  let d : Nat → E := fun k => if k = n then x else h.data k
  ⟨n + 1, siftUpF le n d n⟩

/-- Rust `BinaryHeap::pop`: remove the last element; if the heap is still
non-empty, swap it with the root and `sift_down_to_bottom(0)`.  Returns the
new heap and the popped element (the old root). -/
def heapPop {E : Type} (le : E → E → Bool) (h : RustHeap E) :
    RustHeap E × Option E :=
  if h.size = 0 then (h, none)
  else
    let last := h.data (h.size - 1)
    let n := h.size - 1
    if n = 0 then (⟨0, h.data⟩, some last)
    else
      let item := h.data 0
      let d : Nat → E := fun k => if k = 0 then last else h.data k
      (⟨n, siftDownToBottom le n d⟩, some item)

/-- The comparison the crate's heap actually uses: `Reverse (Event T)`
ordering, i.e. `Reverse x ≤ Reverse y ↔ y.time ≤ x.time`
(`impl Ord for Event` compares by `time` alone). -/
def revLe {T : Type} (x y : Event T) : Bool := decide (y.time ≤ x.time)

/-- The max-heap shape invariant of the backing array: every non-root node
is `le` its parent. -/
def HeapWF {E : Type} (le : E → E → Bool) (a : Nat → E) (n : Nat) : Prop :=
  ∀ c, c < n → 0 < c → le (a c) (a (parentIdx c)) = true

/-- Membership of an element in the live part of the heap array. -/
def heapContains {E : Type} (h : RustHeap E) (x : E) : Prop :=
  ∃ i, i < h.size ∧ h.data i = x

/-- All live heap elements satisfy `P`. -/
def heapAll {E : Type} (P : E → Prop) (h : RustHeap E) : Prop :=
  ∀ i, i < h.size → P (h.data i)

/-! ### `SimpleResource` (src/resources.rs) -/

/-- `SimpleResource<T>`: a counting resource with a FIFO wait queue
(`VecDeque<Event<T>>`). -/
structure SimpleResource (T : Type) where
  quantity : Nat
  available : Nat
  queue : List (Event T)

/-- `SimpleResource::new(quantity)`. -/
def SimpleResource.new {T : Type} (quantity : Nat) : SimpleResource T :=
  ⟨quantity, quantity, []⟩

/-- `SimpleResource::allocate_or_enqueue`: grant (decrement `available`,
return the event unchanged) if `available > 0`, else push the event to the
tail of the wait queue and return `None`. -/
def SimpleResource.allocate_or_enqueue {T : Type} (res : SimpleResource T)
    (event : Event T) : SimpleResource T × Option (Event T) :=
  if 0 < res.available then
    ({ res with available := res.available - 1 }, some event)
  else
    ({ res with queue := res.queue ++ [event] }, none)

/-- `SimpleResource::release_and_schedule_next`: pop the head waiter if the
queue is non-empty, rewriting its time to the release event's time; else
`assert!(available < quantity)` (an `Except.error` here) and increment
`available`. -/
def SimpleResource.release_and_schedule_next {T : Type}
    (res : SimpleResource T) (event : Event T) :
    Except String (SimpleResource T × Option (Event T)) :=
  match res.queue with
  | request_event :: rest =>
    .ok ({ res with queue := rest },
         some { request_event with time := event.time })
  | [] =>
    if res.available < res.quantity then
      .ok ({ res with available := res.available + 1 }, none)
    else
      .error "assertion failed: self.available < self.quantity"

/-! ### `Simulation` (src/lib.rs) -/

/-- `Simulation<T>`: time, step counter, process registry (tombstoned slots
are `none`; a live slot carries the generator function and the history of
contexts already consumed), future-event queue, trace, resources.
`SimpleResource` is the only `Resource` implementation in the crate. -/
structure Simulation (T : Type) where
  time : Time
  steps : Nat
  processes : List (Option (ProcessFn T × List (SimContext T)))
  future_events : RustHeap (Event T)
  processed_events : List (Event T × T)
  resources : List (SimpleResource T)

/-- `EndCondition` of src/lib.rs. -/
inductive EndCondition where
  | Time (t : Desim.Time)
  | NoEvents
  | NSteps (n : Nat)

/-- `Simulation::default()` / `Simulation::new()`. -/
def Simulation.new (T : Type) [Inhabited T] : Simulation T :=
  { time := 0
    steps := 0
    processes := []
    future_events := ⟨0, fun _ => ⟨0, 0, default⟩⟩
    processed_events := []
    resources := [] }

/-- `Simulation::create_process`: append a live slot, return its index. -/
def Simulation.create_process {T : Type} (sim : Simulation T)
    (pf : ProcessFn T) : Simulation T × ProcessId :=
  ({ sim with processes := sim.processes ++ [some (pf, [])] },
   sim.processes.length)

/-- `Simulation::create_resource`: append a resource, return its index. -/
def Simulation.create_resource {T : Type} (sim : Simulation T)
    (res : SimpleResource T) : Simulation T × ResourceId :=
  ({ sim with resources := sim.resources ++ [res] }, sim.resources.length)

/-- `Simulation::schedule_event`: push `Event::new(time, process, state)`
onto the future-event queue (the `time` argument is stored as is). -/
def Simulation.schedule_event {T : Type} (sim : Simulation T) (time : Time)
    (process : ProcessId) (state : T) : Simulation T :=
  { sim with
    future_events := heapPush revLe sim.future_events ⟨time, process, state⟩ }

/-- `Simulation::log_processed_event`: append `(event, sim_state)` to the
trace iff `sim_state.should_log()`. -/
def log_processed_event {T : Type} (ops : SimStateOps T) (sim : Simulation T)
    (event : Event T) (sim_state : T) : Simulation T :=
  if ops.should_log sim_state then
    { sim with processed_events := sim.processed_events ++ [(event, sim_state)] }
  else sim

/-- The `match effect { ... }` dispatch inside `Simulation::step`, acting on
the simulation after the pop, the resume, and the logging.  `event` is the
popped event, `y` the yielded state. -/
def dispatchEffect {T : Type} (ops : SimStateOps T) (event : Event T) (y : T)
    (sim : Simulation T) : Except String (Simulation T) :=
  match ops.get_effect y with
  | .timeOut t =>
    .ok { sim with
          future_events :=
            heapPush revLe sim.future_events ⟨sim.time + t, event.process, y⟩ }
  | .event t p =>
    .ok { sim with
          future_events :=
            heapPush revLe sim.future_events ⟨t + sim.time, p, y⟩ }
  | .request r =>
    match sim.resources.get? r with
    | none => .error "index out of bounds"
    | some res =>
      let request_event : Event T := ⟨sim.time, event.process, y⟩
      let out := res.allocate_or_enqueue request_event
      let sim2 := { sim with resources := sim.resources.set r out.1 }
      match out.2 with
      | some e =>
        .ok { sim2 with future_events := heapPush revLe sim2.future_events e }
      | none => .ok sim2
  | .release r =>
    match sim.resources.get? r with
    | none => .error "index out of bounds"
    | some res =>
      let release_event : Event T := ⟨sim.time, event.process, y⟩
      match res.release_and_schedule_next release_event with
      | .error msg => .error msg
      | .ok out =>
        let sim2 := { sim with resources := sim.resources.set r out.1 }
        let sim3 :=
          match out.2 with
          | some e =>
            { sim2 with future_events := heapPush revLe sim2.future_events e }
          | none => sim2
        .ok { sim3 with
              future_events := heapPush revLe sim3.future_events release_event }
  | .wait => .ok sim
  | .trace =>
    .ok { sim with
          future_events :=
            heapPush revLe sim.future_events ⟨sim.time, event.process, y⟩ }

/-- `Simulation::step`: increment the step counter, pop the earliest event
(no-op if the queue is empty), set the time, resume the owning process
(tombstone lookup failure is the `expect` panic), tombstone on completion,
otherwise log first and then dispatch the yielded effect. -/
def step {T : Type} (ops : SimStateOps T) (sim0 : Simulation T) :
    Except String (Simulation T) :=
  let sim := { sim0 with steps := sim0.steps + 1 }
  match heapPop revLe sim.future_events with
  | (_, none) => .ok sim
  | (h1, some event) =>
    let sim := { sim with time := event.time, future_events := h1 }
    match sim.processes.get? event.process with
    | none => .error "index out of bounds"
    | some none => .error "ERROR. Tried to resume a completed process."
    | some (some (pf, hist)) =>
      let hist2 := hist ++ [⟨sim.time, event.state⟩]
      match pf hist2 with
      | .complete =>
        .ok { sim with processes := sim.processes.set event.process none }
      | .yielded y =>
        let sim := { sim with
                     processes :=
                       sim.processes.set event.process (some (pf, hist2)) }
        let sim := log_processed_event ops sim event y
        dispatchEffect ops event y sim

/-- `Simulation::check_ending_condition`. -/
def check_ending_condition {T : Type} (sim : Simulation T) :
    EndCondition → Bool
  | .Time t => decide (t ≤ sim.time)
  | .NoEvents => sim.future_events.size == 0
  | .NSteps n => sim.steps == n

/-- Iterated `step` (the loop body of `Simulation::run`). -/
def stepN {T : Type} (ops : SimStateOps T) :
    Nat → Simulation T → Except String (Simulation T)
  | 0, sim => .ok sim
  | n + 1, sim =>
    match step ops sim with
    | .ok sim2 => stepN ops n sim2
    | .error e => .error e

/-- The event popped by the next `step`, if any (first component of the
`future_events.pop()` match in the source). -/
def stepPopped {T : Type} (sim : Simulation T) : Option (Event T) :=
  (heapPop revLe sim.future_events).2

/-- The state yielded by the process resumed by the next `step`, if the next
`step` pops an event, finds a live process, and that process yields. -/
def stepYield {T : Type} (sim : Simulation T) : Option T :=
  match heapPop revLe sim.future_events with
  | (_, none) => none
  | (_, some event) =>
    match sim.processes.get? event.process with
    | some (some (pf, hist)) =>
      match pf (hist ++ [⟨event.time, event.state⟩]) with
      | .yielded y => some y
      | .complete => none
    | _ => none

/-- Total extractor for `Except` results of `step`. -/
def getOk {ε α : Type} (x : Except ε α) (dflt : α) : α :=
  match x with
  | .ok a => a
  | .error _ => dflt

/-- Whether an `Except` result is `ok` (the simulation did not panic). -/
def exceptOk {ε α : Type} : Except ε α → Bool
  | .ok _ => true
  | .error _ => false

instance {E : Type} [DecidableEq E] (h : RustHeap E) (x : E) :
    Decidable (heapContains h x) :=
  decidable_of_iff (∃ i ∈ List.range h.size, h.data i = x)
    (by simp [heapContains, List.mem_range])

instance {E : Type} (le : E → E → Bool) (a : Nat → E) (n : Nat) :
    Decidable (HeapWF le a n) :=
  decidable_of_iff
    (∀ c ∈ List.range n, 0 < c → le (a c) (a (parentIdx c)) = true)
    (by simp [HeapWF, List.mem_range])


/-! ### Invariants used by the theorems -/

/-- The sift-up loop invariant: the heap shape holds everywhere except at the
edge into `pos`, and the element above `pos` dominates the children of `pos`. -/
def UpInv {E : Type} (le : E → E → Bool) (a : Nat → E) (n pos : Nat) : Prop :=
  (∀ c, c < n → 0 < c → c ≠ pos → le (a c) (a (parentIdx c)) = true) ∧
  (∀ c, c < n → parentIdx c = pos → 0 < pos → le (a c) (a (parentIdx pos)) = true)

/-- The sift-down loop invariant: the heap shape holds on every edge not
touching the hole `pos`, and the element above the hole dominates the
children of the hole. -/
def DInv {E : Type} (le : E → E → Bool) (a : Nat → E) (n pos : Nat) : Prop :=
  (∀ c, c < n → 0 < c → c ≠ pos → parentIdx c ≠ pos →
    le (a c) (a (parentIdx c)) = true) ∧
  (∀ c, c < n → parentIdx c = pos → 0 < pos → le (a c) (a (parentIdx pos)) = true)

/-- Engine invariant: the future-event queue is a well-formed binary heap and
every queued event's time is at least the current simulation time
(spec invariants I1/I2). -/
def SimInv {T : Type} (sim : Simulation T) : Prop :=
  HeapWF revLe sim.future_events.data sim.future_events.size ∧
  ∀ i, i < sim.future_events.size →
    sim.time ≤ (sim.future_events.data i).time

instance {T : Type} (sim : Simulation T) : Decidable (SimInv sim) :=
  have : Decidable (∀ i, i < sim.future_events.size →
      sim.time ≤ (sim.future_events.data i).time) :=
    decidable_of_iff
      (∀ i ∈ List.range sim.future_events.size,
        sim.time ≤ (sim.future_events.data i).time)
      (by simp [List.mem_range])
  instDecidableAnd

/-- The effect schedules no event in the past: its delta is non-negative. -/
def effNonNeg : Effect → Prop
  | .timeOut t => 0 ≤ t
  | .event t _ => 0 ≤ t
  | _ => True

/-- Every state the generator can ever yield carries a non-negative delta. -/
def NonNegProc {T : Type} (ops : SimStateOps T) (pf : ProcessFn T) : Prop :=
  ∀ hist, match pf hist with
    | .yielded y => effNonNeg (ops.get_effect y)
    | .complete => True

/-- All live processes of the simulation only yield non-negative deltas. -/
def SimNonNeg {T : Type} (ops : SimStateOps T) (sim : Simulation T) : Prop :=
  ∀ entry ∈ sim.processes, ∀ pf hist, entry = some (pf, hist) →
    NonNegProc ops pf

/-! ### Concrete simulations used as counterexamples and witnesses -/

/-- A process that always yields `Effect::Wait`. -/
def pfWait : ProcessFn Effect := fun _ => .yielded .wait

/-- A process that always yields `Effect::TimeOut(-3.0)`. -/
def pfNeg : ProcessFn Effect := fun _ => .yielded (.timeOut (-3))

/-- A process that always yields `Effect::TimeOut(-1.0)`. -/
def pfNeg1 : ProcessFn Effect := fun _ => .yielded (.timeOut (-1))

/-- A process that always yields `Effect::TimeOut(1.0)`. -/
def pfGood : ProcessFn Effect := fun _ => .yielded (.timeOut 1)

/-- One process yielding `TimeOut(-3.0)`, scheduled at absolute time 5. -/
def c1sim0 : Simulation Effect :=
  Simulation.schedule_event
    { Simulation.new Effect with processes := [some (pfNeg, [])] } 5 0 .wait

def c1sim1 : Simulation Effect := getOk (step simStateEffectOps c1sim0) c1sim0

def c1sim2 : Simulation Effect := getOk (step simStateEffectOps c1sim1) c1sim1

/-- One process yielding `TimeOut(1.0)`, scheduled at absolute time 0. -/
def c1good : Simulation Effect :=
  Simulation.schedule_event
    { Simulation.new Effect with processes := [some (pfGood, [])] } 0 0 .wait

def c1goodAfter : Simulation Effect := getOk (step simStateEffectOps c1good) c1good

/-- Four waiting processes. -/
def c2base : Simulation Effect :=
  { Simulation.new Effect with
    processes :=
      [some (pfWait, []), some (pfWait, []), some (pfWait, []),
       some (pfWait, [])] }

/-- Four events, all at time 0, enqueued for processes 0, 1, 2, 3 in that
order. -/
def c2sim0 : Simulation Effect :=
  ((((c2base.schedule_event 0 0 .wait).schedule_event 0 1
      .wait).schedule_event 0 2 .wait).schedule_event 0 3 .wait)

def c2sim2 : Simulation Effect := getOk (stepN simStateEffectOps 2 c2sim0) c2sim0

/-- A fresh simulation with an empty future-event queue. -/
def c4sim : Simulation Effect := Simulation.new Effect

/-- One process yielding `TimeOut(-1.0)`, scheduled at absolute time 4. -/
def c5sim0 : Simulation Effect :=
  Simulation.schedule_event
    { Simulation.new Effect with processes := [some (pfNeg1, [])] } 4 0 .wait

def c5sim1 : Simulation Effect := getOk (step simStateEffectOps c5sim0) c5sim0

/-- A process that always yields `Effect::Event { time: 2.0, process: 0 }`. -/
def pfEvent : ProcessFn Effect := fun _ => .yielded (.event 2 0)

/-- One process yielding `Effect::Event{2.0, 0}`, scheduled at absolute
time 1. -/
def c3sim0 : Simulation Effect :=
  Simulation.schedule_event
    { Simulation.new Effect with processes := [some (pfEvent, [])] } 1 0 .wait

def c3sim1 : Simulation Effect := getOk (step simStateEffectOps c3sim0) c3sim0

/-! ### Bounded store

Modelled from the spec: the bounded store resource (`SimpleStore`, `StoreId`,
`create_store`, and the `Push`/`Pull` effect variants) is referenced by
examples/store.rs but its implementation is not present under src/.  The
definitions below follow spec §4.6 ("Built-in resource: bounded store"):
state is a capacity, a FIFO buffer of values with `|buffer| ≤ capacity`, a
FIFO queue of pending consumers and a FIFO queue of pending producers. -/

/-- Modelled from the spec: bounded store state (spec §4.6). -/
structure SimpleStore (V : Type) where
  capacity : Nat
  buffer : List V
  pending_consumers : List ProcessId
  pending_producers : List (ProcessId × V)
deriving DecidableEq

/-- Modelled from the spec: a fresh empty store of the given capacity. -/
def SimpleStore.new (V : Type) (capacity : Nat) : SimpleStore V :=
  ⟨capacity, [], [], []⟩

/-- Modelled from the spec: outcome of a `Push` (spec §4.6). -/
inductive StorePushResult (V : Type) where
  | delivered (consumer : ProcessId) (value : V)
  | buffered
  | blocked
deriving DecidableEq

/-- Modelled from the spec (§4.6): `Push(s, v)`: if a consumer is waiting,
pop the earliest consumer and resume it carrying `v`; else if the buffer has
room, append `v`; else enqueue the producer as waiting. -/
def SimpleStore.push {V : Type} (s : SimpleStore V) (producer : ProcessId)
    (v : V) : SimpleStore V × StorePushResult V :=
  match s.pending_consumers with
  | c :: rest => ({ s with pending_consumers := rest }, .delivered c v)
  | [] =>
    if s.buffer.length < s.capacity then
      ({ s with buffer := s.buffer ++ [v] }, .buffered)
    else
      ({ s with pending_producers := s.pending_producers ++ [(producer, v)] },
       .blocked)

/-- Modelled from the spec (§4.6): `Pop(s)`: if the buffer is non-empty, pop
the head value and hand it to the consumer, moving a waiting producer's value
into the buffer if one exists; else enqueue the consumer. -/
def SimpleStore.pop {V : Type} (s : SimpleStore V) (consumer : ProcessId) :
    SimpleStore V × Option V :=
  match s.buffer with
  | v :: rest =>
    match s.pending_producers with
    | pw :: qrest =>
      ({ s with buffer := rest ++ [pw.2], pending_producers := qrest }, some v)
    | [] => ({ s with buffer := rest }, some v)
  | [] =>
    ({ s with pending_consumers := s.pending_consumers ++ [consumer] }, none)

/-- Push a whole list of values, in order. -/
def SimpleStore.pushAll {V : Type} (s : SimpleStore V) (producer : ProcessId)
    (vs : List V) : SimpleStore V :=
  vs.foldl (fun st v => (st.push producer v).1) s

/-- Pop `n` times, collecting the delivered values in order. -/
def SimpleStore.popN {V : Type} (s : SimpleStore V) (consumer : ProcessId) :
    Nat → SimpleStore V × List V
  | 0 => (s, [])
  | n + 1 =>
    let s1 := s.pop consumer
    let s2 := s1.1.popN consumer n
    (s2.1, s1.2.toList ++ s2.2)

end Desim

/-! ## Theorems -/

namespace Desim

/-! ### Index and swap lemmas -/

theorem parentIdx_lt {c : Nat} (hc : 0 < c) : parentIdx c < c := by
  unfold parentIdx; omega

theorem swp_left {E : Type} (a : Nat → E) (i j : Nat) : swp a i j i = a j := by
  unfold swp; simp

theorem swp_right {E : Type} (a : Nat → E) (i j : Nat) : swp a i j j = a i := by
  unfold swp
  by_cases h : j = i
  · subst h; simp
  · simp [h]

theorem swp_other {E : Type} (a : Nat → E) (i j k : Nat) (h1 : k ≠ i)
    (h2 : k ≠ j) : swp a i j k = a k := by
  unfold swp; simp [h1, h2]

theorem swp_mapsInto {E : Type} (a : Nat → E) (i j n : Nat) (hi : i < n)
    (hj : j < n) : ∀ k, k < n → ∃ m, m < n ∧ swp a i j k = a m := by
  intro k hk
  by_cases h1 : k = i
  · subst h1; exact ⟨j, hj, swp_left a k j⟩
  · by_cases h2 : k = j
    · subst h2; exact ⟨i, hi, swp_right a i k⟩
    · exact ⟨k, hk, swp_other a i j k h1 h2⟩

/-! ### sift_up -/

theorem siftUpF_perm {E : Type} (le : E → E → Bool) :
    ∀ (fuel : Nat) (a : Nat → E) (pos n : Nat), pos < n →
      (∀ i, i < n → ∃ j, j < n ∧ siftUpF le fuel a pos i = a j) ∧
      (∃ j, j < n ∧ siftUpF le fuel a pos j = a pos) := by
  intro fuel
  induction fuel with
  | zero =>
    intro a pos n hpos
    exact ⟨fun i hi => ⟨i, hi, rfl⟩, ⟨pos, hpos, rfl⟩⟩
  | succ fuel ih =>
    intro a pos n hpos
    by_cases h0 : pos = 0
    · subst h0
      simp only [siftUpF, if_pos rfl]
      exact ⟨fun i hi => ⟨i, hi, rfl⟩, ⟨0, hpos, rfl⟩⟩
    · by_cases hle : le (a pos) (a (parentIdx pos)) = true
      · simp only [siftUpF, if_neg h0, hle, if_pos]
        exact ⟨fun i hi => ⟨i, hi, rfl⟩, ⟨pos, hpos, rfl⟩⟩
      · have hpos0 : 0 < pos := Nat.pos_of_ne_zero h0
        have hplt : parentIdx pos < pos := parentIdx_lt hpos0
        rw [Bool.not_eq_true] at hle
        have hunf : siftUpF le (fuel + 1) a pos =
            siftUpF le fuel (swp a pos (parentIdx pos)) (parentIdx pos) := by
          simp [siftUpF, h0, hle]
        obtain ⟨hmap, hpres⟩ :=
          ih (swp a pos (parentIdx pos)) (parentIdx pos) n
            (lt_trans hplt hpos)
        constructor
        · intro i hi
          obtain ⟨j, hj, hval⟩ := hmap i hi
          obtain ⟨m, hm, hval2⟩ :=
            swp_mapsInto a pos (parentIdx pos) n hpos
              (lt_trans hplt hpos) j hj
          exact ⟨m, hm, by rw [hunf, hval, hval2]⟩
        · obtain ⟨j, hj, hval⟩ := hpres
          refine ⟨j, hj, ?_⟩
          rw [hunf, hval, swp_right]

/-- One sift-up swap step preserves the sift-up invariant, moving the hole to
the parent. -/
theorem upInv_swap {E : Type} (le : E → E → Bool)
    (hTrans : ∀ x y z, le x y = true → le y z = true → le x z = true)
    {a : Nat → E} {n pos : Nat} (hpos : pos < n) (hpos0 : 0 < pos)
    (hinv : UpInv le a n pos)
    (hba : le (a (parentIdx pos)) (a pos) = true) :
    UpInv le (swp a pos (parentIdx pos)) n (parentIdx pos) := by
  have hplt : parentIdx pos < pos := parentIdx_lt hpos0
  constructor
  · intro c hc hc0 hcne
    by_cases hcp : c = pos
    · subst hcp
      rw [swp_left, swp_right]
      exact hba
    · by_cases hpc : parentIdx c = pos
      · rw [swp_other a pos (parentIdx pos) c hcp hcne, hpc, swp_left]
        exact hinv.2 c hc hpc hpos0
      · by_cases hpp : parentIdx c = parentIdx pos
        · rw [swp_other a pos (parentIdx pos) c hcp hcne, hpp, swp_right]
          refine hTrans _ _ _ ?_ hba
          rw [← hpp]
          exact hinv.1 c hc hc0 hcp
        · rw [swp_other a pos (parentIdx pos) c hcp hcne,
              swp_other a pos (parentIdx pos) (parentIdx c) hpc hpp]
          exact hinv.1 c hc hc0 hcp
  · intro c hc hpc hp0
    have hg : parentIdx (parentIdx pos) < parentIdx pos := parentIdx_lt hp0
    have h1 : parentIdx (parentIdx pos) ≠ pos := by omega
    have h2 : parentIdx (parentIdx pos) ≠ parentIdx pos := by omega
    rw [swp_other a pos (parentIdx pos) (parentIdx (parentIdx pos)) h1 h2]
    by_cases hcp : c = pos
    · rw [hcp, swp_left]
      exact hinv.1 (parentIdx pos) (lt_trans hplt hpos) hp0 (by omega)
    · have hc0 : 0 < c := by
        by_contra h
        have hc00 : c = 0 := by omega
        subst hc00
        unfold parentIdx at hpc hp0
        omega
      have hcne2 : c ≠ parentIdx pos := by
        have := parentIdx_lt hc0
        omega
      rw [swp_other a pos (parentIdx pos) c hcp hcne2]
      refine hTrans _ _ _ ?_
        (hinv.1 (parentIdx pos) (lt_trans hplt hpos) hp0 (by omega))
      rw [← hpc]
      exact hinv.1 c hc hc0 hcp

theorem siftUpF_wf {E : Type} (le : E → E → Bool)
    (hTot : ∀ x y, le x y = true ∨ le y x = true)
    (hTrans : ∀ x y z, le x y = true → le y z = true → le x z = true) :
    ∀ (fuel : Nat) (a : Nat → E) (pos n : Nat), pos ≤ fuel → pos < n →
      UpInv le a n pos → HeapWF le (siftUpF le fuel a pos) n := by
  intro fuel
  induction fuel with
  | zero =>
    intro a pos n hf hpos hinv
    have h0 : pos = 0 := by omega
    subst h0
    intro c hc hc0
    simpa [siftUpF] using hinv.1 c hc hc0 (by omega)
  | succ fuel ih =>
    intro a pos n hf hpos hinv
    by_cases h0 : pos = 0
    · subst h0
      intro c hc hc0
      simpa [siftUpF] using hinv.1 c hc hc0 (by omega)
    · have hpos0 : 0 < pos := Nat.pos_of_ne_zero h0
      have hplt : parentIdx pos < pos := parentIdx_lt hpos0
      by_cases hle : le (a pos) (a (parentIdx pos)) = true
      · intro c hc hc0
        simp only [siftUpF, if_neg h0, hle, if_pos]
        by_cases hcp : c = pos
        · subst hcp; exact hle
        · exact hinv.1 c hc hc0 hcp
      · have hba : le (a (parentIdx pos)) (a pos) = true := by
          rcases hTot (a pos) (a (parentIdx pos)) with h | h
          · exact absurd h hle
          · exact h
        rw [Bool.not_eq_true] at hle
        have hunf : siftUpF le (fuel + 1) a pos =
            siftUpF le fuel (swp a pos (parentIdx pos)) (parentIdx pos) := by
          simp [siftUpF, h0, hle]
        rw [hunf]
        exact ih _ _ n (by omega) (lt_trans hplt hpos)
          (upInv_swap le hTrans hpos hpos0 hinv hba)

/-- In a well-formed heap the root dominates every element. -/
theorem heapWF_le_root {E : Type} (le : E → E → Bool)
    (hTot : ∀ x y, le x y = true ∨ le y x = true)
    (hTrans : ∀ x y z, le x y = true → le y z = true → le x z = true)
    {a : Nat → E} {n : Nat} (hwf : HeapWF le a n) :
    ∀ c, c < n → le (a c) (a 0) = true := by
  intro c
  induction c using Nat.strong_induction_on with
  | _ c ih =>
    intro hc
    rcases Nat.eq_zero_or_pos c with h0 | h0
    · subst h0
      rcases hTot (a 0) (a 0) with h | h <;> exact h
    · have hp := parentIdx_lt h0
      exact hTrans _ _ _ (hwf c hc h0) (ih (parentIdx c) hp (by omega))

/-! ### sift_down_to_bottom -/

/-- One descent swap step preserves the sift-down invariant, moving the hole
to the chosen child `cho`, provided `cho` dominates its sibling. -/
theorem dInv_swapDown {E : Type} (le : E → E → Bool)
    {a : Nat → E} {end_ pos cho : Nat}
    (hpos : pos < end_) (hcho : cho < end_)
    (hchild : cho = 2 * pos + 1 ∨ cho = 2 * pos + 2)
    (hdom : ∀ c, c < end_ → parentIdx c = pos → c ≠ pos → c ≠ cho →
      le (a c) (a cho) = true)
    (hinv : DInv le a end_ pos) :
    DInv le (swp a pos cho) end_ cho := by
  have hpc0 : parentIdx cho = pos := by
    unfold parentIdx; omega
  have hlt : pos < cho := by omega
  constructor
  · intro c hc hc0 hcne hpne
    by_cases hcp : c = pos
    · rw [hcp, swp_left]
      have hpos0 : 0 < pos := by omega
      have hpp : parentIdx pos < pos := parentIdx_lt hpos0
      rw [swp_other a pos cho (parentIdx pos) (by omega) (by omega)]
      exact hinv.2 cho hcho hpc0 hpos0
    · by_cases hsib : parentIdx c = pos
      · rw [swp_other a pos cho c hcp hcne, hsib, swp_left]
        exact hdom c hc hsib hcp hcne
      · rw [swp_other a pos cho c hcp hcne,
            swp_other a pos cho (parentIdx c) hsib hpne]
        exact hinv.1 c hc hc0 hcp hsib
  · intro c hc hpc hcho0
    have hc0 : 0 < c := by
      by_contra h
      have hc00 : c = 0 := by omega
      subst hc00
      simp [parentIdx] at hpc
      omega
    have hcgt : cho < c := by
      have := parentIdx_lt hc0
      omega
    rw [swp_other a pos cho c (by omega) (by omega), hpc0, swp_left]
    have h1 := hinv.1 c hc hc0 (by omega)
      (by rw [hpc]; omega)
    rwa [hpc] at h1

/-- A hole with no children inside the array turns the sift-down invariant
into the sift-up invariant. -/
theorem dInv_to_upInv_leaf {E : Type} (le : E → E → Bool)
    {a : Nat → E} {end_ q : Nat} (hleaf : end_ ≤ 2 * q + 1)
    (hinv : DInv le a end_ q) : UpInv le a end_ q := by
  constructor
  · intro c hc hc0 hcne
    refine hinv.1 c hc hc0 hcne ?_
    intro hpar
    unfold parentIdx at hpar
    omega
  · intro c hc hpc hq0
    exfalso
    unfold parentIdx at hpc
    omega

/-- The descent loop of `sift_down_to_bottom`: the invariant is maintained,
the final hole has at most one child inside the array, and every cell holds
one of the original elements. -/
theorem siftDownLoop_spec {E : Type} (le : E → E → Bool)
    (hTot : ∀ x y, le x y = true ∨ le y x = true) (end_ : Nat) :
    ∀ (fuel : Nat) (a : Nat → E) (pos : Nat), pos < end_ →
      end_ ≤ fuel + pos → DInv le a end_ pos →
      DInv le (siftDownLoop le end_ fuel a pos).1 end_
        (siftDownLoop le end_ fuel a pos).2 ∧
      (siftDownLoop le end_ fuel a pos).2 < end_ ∧
      ¬(2 * (siftDownLoop le end_ fuel a pos).2 + 1 < end_ - 1) ∧
      (∀ i, i < end_ → ∃ j, j < end_ ∧
        (siftDownLoop le end_ fuel a pos).1 i = a j) := by
  intro fuel
  induction fuel with
  | zero =>
    intro a pos hpos hfuel hinv
    omega
  | succ fuel ih =>
    intro a pos hpos hfuel hinv
    by_cases hguard : 2 * pos + 1 < end_ - 1
    · have hc1 : 2 * pos + 1 < end_ := by omega
      have hc2 : 2 * pos + 2 < end_ := by omega
      by_cases hle : le (a (2 * pos + 1)) (a (2 * pos + 1 + 1)) = true
      · -- the right child is chosen
        have hunf : siftDownLoop le end_ (fuel + 1) a pos =
            siftDownLoop le end_ fuel (swp a pos (2 * pos + 2))
              (2 * pos + 2) := by
          simp only [siftDownLoop]
          rw [if_pos hguard, if_pos hle]
        have hdinv : DInv le (swp a pos (2 * pos + 2)) end_ (2 * pos + 2) := by
          refine dInv_swapDown le hpos hc2 (Or.inr rfl) ?_ hinv
          intro c hc hpc hnp hne
          have hcases : c = 2 * pos + 1 ∨ c = 2 * pos + 2 := by
            unfold parentIdx at hpc
            omega
          have hcval : c = 2 * pos + 1 := by omega
          rw [hcval]
          simpa using hle
        obtain ⟨i1, i2, i3, i4⟩ :=
          ih (swp a pos (2 * pos + 2)) (2 * pos + 2) hc2 (by omega) hdinv
        rw [hunf]
        refine ⟨i1, i2, i3, ?_⟩
        intro i hi
        obtain ⟨j, hj, hval⟩ := i4 i hi
        obtain ⟨m, hm, hval2⟩ :=
          swp_mapsInto a pos (2 * pos + 2) end_ hpos hc2 j hj
        exact ⟨m, hm, by rw [hval, hval2]⟩
      · -- the left child is chosen
        have hba : le (a (2 * pos + 1 + 1)) (a (2 * pos + 1)) = true := by
          rcases hTot (a (2 * pos + 1)) (a (2 * pos + 1 + 1)) with h | h
          · exact absurd h hle
          · exact h
        have hunf : siftDownLoop le end_ (fuel + 1) a pos =
            siftDownLoop le end_ fuel (swp a pos (2 * pos + 1))
              (2 * pos + 1) := by
          simp only [siftDownLoop]
          rw [if_pos hguard, if_neg hle]
        have hdinv : DInv le (swp a pos (2 * pos + 1)) end_ (2 * pos + 1) := by
          refine dInv_swapDown le hpos hc1 (Or.inl rfl) ?_ hinv
          intro c hc hpc hnp hne
          have hcases : c = 2 * pos + 1 ∨ c = 2 * pos + 2 := by
            unfold parentIdx at hpc
            omega
          have hcval : c = 2 * pos + 2 := by omega
          rw [hcval]
          simpa using hba
        obtain ⟨i1, i2, i3, i4⟩ :=
          ih (swp a pos (2 * pos + 1)) (2 * pos + 1) hc1 (by omega) hdinv
        rw [hunf]
        refine ⟨i1, i2, i3, ?_⟩
        intro i hi
        obtain ⟨j, hj, hval⟩ := i4 i hi
        obtain ⟨m, hm, hval2⟩ :=
          swp_mapsInto a pos (2 * pos + 1) end_ hpos hc1 j hj
        exact ⟨m, hm, by rw [hval, hval2]⟩
    · have hunf : siftDownLoop le end_ (fuel + 1) a pos = (a, pos) := by
        simp [siftDownLoop, hguard]
      rw [hunf]
      exact ⟨hinv, hpos, hguard, fun i hi => ⟨i, hi, rfl⟩⟩

/-- `sift_down_to_bottom` restores the heap invariant from a hole at the
root, permuting the array elements. -/
theorem siftDownToBottom_wf {E : Type} (le : E → E → Bool)
    (hTot : ∀ x y, le x y = true ∨ le y x = true)
    (hTrans : ∀ x y z, le x y = true → le y z = true → le x z = true)
    (end_ : Nat) (a : Nat → E) (hend : 0 < end_) (hinv : DInv le a end_ 0) :
    HeapWF le (siftDownToBottom le end_ a) end_ ∧
    (∀ i, i < end_ → ∃ j, j < end_ ∧ siftDownToBottom le end_ a i = a j) := by
  obtain ⟨hinv1, hq, hstop, hmaps⟩ :=
    siftDownLoop_spec le hTot end_ end_ a 0 hend (by omega) hinv
  by_cases hlast : 2 * (siftDownLoop le end_ end_ a 0).2 + 1 = end_ - 1
  · have hunf : siftDownToBottom le end_ a =
        siftUpF le (2 * (siftDownLoop le end_ end_ a 0).2 + 1)
          (swp (siftDownLoop le end_ end_ a 0).1
            (siftDownLoop le end_ end_ a 0).2
            (2 * (siftDownLoop le end_ end_ a 0).2 + 1))
          (2 * (siftDownLoop le end_ end_ a 0).2 + 1) := by
      simp only [siftDownToBottom]
      rw [if_pos hlast]
    have hcho : 2 * (siftDownLoop le end_ end_ a 0).2 + 1 < end_ := by omega
    have hdinv2 : DInv le
        (swp (siftDownLoop le end_ end_ a 0).1
          (siftDownLoop le end_ end_ a 0).2
          (2 * (siftDownLoop le end_ end_ a 0).2 + 1)) end_
        (2 * (siftDownLoop le end_ end_ a 0).2 + 1) := by
      refine dInv_swapDown le hq hcho (Or.inl rfl) ?_ hinv1
      intro c hc hpc hnp hne
      exfalso
      unfold parentIdx at hpc
      omega
    have hupinv := dInv_to_upInv_leaf le (by omega) hdinv2
    constructor
    · rw [hunf]
      exact siftUpF_wf le hTot hTrans _ _ _ end_ (by omega) hcho hupinv
    · rw [hunf]
      intro i hi
      obtain ⟨j, hj, hval⟩ :=
        (siftUpF_perm le _ _ _ end_ hcho).1 i hi
      obtain ⟨m, hm, hval2⟩ :=
        swp_mapsInto (siftDownLoop le end_ end_ a 0).1
          (siftDownLoop le end_ end_ a 0).2
          (2 * (siftDownLoop le end_ end_ a 0).2 + 1) end_ hq hcho j hj
      obtain ⟨k, hk, hval3⟩ := hmaps m hm
      exact ⟨k, hk, by rw [hval, hval2, hval3]⟩
  · have hleaf : end_ ≤ 2 * (siftDownLoop le end_ end_ a 0).2 + 1 := by omega
    have hunf : siftDownToBottom le end_ a =
        siftUpF le (siftDownLoop le end_ end_ a 0).2
          (siftDownLoop le end_ end_ a 0).1
          (siftDownLoop le end_ end_ a 0).2 := by
      simp only [siftDownToBottom]
      rw [if_neg hlast]
    have hupinv := dInv_to_upInv_leaf le hleaf hinv1
    constructor
    · rw [hunf]
      exact siftUpF_wf le hTot hTrans _ _ _ end_ (by omega) hq hupinv
    · rw [hunf]
      intro i hi
      obtain ⟨j, hj, hval⟩ :=
        (siftUpF_perm le _ _ _ end_ hq).1 i hi
      obtain ⟨k, hk, hval3⟩ := hmaps j hj
      exact ⟨k, hk, by rw [hval, hval3]⟩

/-! ### push and pop -/

/-- `BinaryHeap::push` preserves the heap invariant, grows the size by one,
stores exactly the old elements plus the new one, and contains the new
element. -/
theorem heapPush_wf {E : Type} (le : E → E → Bool)
    (hTot : ∀ x y, le x y = true ∨ le y x = true)
    (hTrans : ∀ x y z, le x y = true → le y z = true → le x z = true)
    (h : RustHeap E) (x : E) (hwf : HeapWF le h.data h.size) :
    HeapWF le (heapPush le h x).data (heapPush le h x).size := by
  have hupinv : UpInv le (fun k => if k = h.size then x else h.data k)
      (h.size + 1) h.size := by
    constructor
    · intro c hc hc0 hcne
      have hclt : c < h.size := by omega
      have hplt : parentIdx c < h.size := by
        have := parentIdx_lt hc0
        omega
      simp only [if_neg (by omega : c ≠ h.size),
        if_neg (by omega : parentIdx c ≠ h.size)]
      exact hwf c hclt hc0
    · intro c hc hpc hpos0
      exfalso
      unfold parentIdx at hpc
      omega
  exact siftUpF_wf le hTot hTrans h.size _ h.size (h.size + 1)
    (by omega) (by omega) hupinv

/-- Size and contents of `BinaryHeap::push` (no well-formedness needed). -/
theorem heapPush_size {E : Type} (le : E → E → Bool) (h : RustHeap E)
    (x : E) : (heapPush le h x).size = h.size + 1 := rfl

theorem heapPush_mapsInto {E : Type} (le : E → E → Bool) (h : RustHeap E)
    (x : E) : ∀ i, i < h.size + 1 → (heapPush le h x).data i = x ∨
      ∃ j, j < h.size ∧ (heapPush le h x).data i = h.data j := by
  intro i hi
  obtain ⟨j, hj, hval⟩ :=
    (siftUpF_perm le h.size (fun k => if k = h.size then x else h.data k)
      h.size (h.size + 1) (by omega)).1 i hi
  by_cases hjn : j = h.size
  · left
    rw [show (heapPush le h x).data i =
        siftUpF le h.size (fun k => if k = h.size then x else h.data k)
          h.size i from rfl, hval, hjn]
    simp
  · right
    refine ⟨j, by omega, ?_⟩
    rw [show (heapPush le h x).data i =
        siftUpF le h.size (fun k => if k = h.size then x else h.data k)
          h.size i from rfl, hval]
    simp [hjn]

theorem heapPush_contains {E : Type} (le : E → E → Bool) (h : RustHeap E)
    (x : E) : heapContains (heapPush le h x) x := by
  obtain ⟨j, hj, hval⟩ :=
    (siftUpF_perm le h.size (fun k => if k = h.size then x else h.data k)
      h.size (h.size + 1) (by omega)).2
  refine ⟨j, ?_, ?_⟩
  · rw [heapPush_size]
    exact hj
  · rw [show (heapPush le h x).data j =
        siftUpF le h.size (fun k => if k = h.size then x else h.data k)
          h.size j from rfl, hval]
    simp

/-- `BinaryHeap::pop` on the empty heap returns `None` and leaves the heap
unchanged. -/
theorem heapPop_empty {E : Type} (le : E → E → Bool) (h : RustHeap E)
    (h0 : h.size = 0) : heapPop le h = (h, none) := by
  unfold heapPop
  rw [if_pos h0]

/-- `BinaryHeap::pop` on a non-empty heap returns the root and shrinks the
size by one. -/
theorem heapPop_some {E : Type} (le : E → E → Bool) (h : RustHeap E)
    (h0 : 0 < h.size) : (heapPop le h).2 = some (h.data 0) ∧
      (heapPop le h).1.size = h.size - 1 := by
  unfold heapPop
  rw [if_neg (by omega : ¬h.size = 0)]
  by_cases h1 : h.size - 1 = 0
  · rw [if_pos h1]
    constructor
    · have : h.size - 1 = 0 := h1
      simp only []
      rw [show h.size - 1 = 0 from h1]
    · simp [h1]
  · rw [if_neg h1]
    exact ⟨rfl, rfl⟩

/-- `BinaryHeap::pop` preserves the heap invariant and keeps only elements
of the original array. -/
theorem heapPop_wf {E : Type} (le : E → E → Bool)
    (hTot : ∀ x y, le x y = true ∨ le y x = true)
    (hTrans : ∀ x y z, le x y = true → le y z = true → le x z = true)
    (h : RustHeap E) (hwf : HeapWF le h.data h.size) (h0 : 0 < h.size) :
    HeapWF le (heapPop le h).1.data (h.size - 1) ∧
    (∀ i, i < h.size - 1 → ∃ j, j < h.size ∧
      (heapPop le h).1.data i = h.data j) := by
  unfold heapPop
  rw [if_neg (by omega : ¬h.size = 0)]
  by_cases h1 : h.size - 1 = 0
  · rw [if_pos h1]
    constructor
    · intro c hc hc0
      omega
    · intro i hi
      omega
  · rw [if_neg h1]
    have hdinv : DInv le (fun k => if k = 0 then h.data (h.size - 1)
        else h.data k) (h.size - 1) 0 := by
      constructor
      · intro c hc hc0 hcne hpne
        simp only [if_neg (by omega : ¬c = 0), if_neg hpne]
        exact hwf c (by omega) hc0
      · intro c hc hpc hpos0
        omega
    obtain ⟨hw, hm⟩ := siftDownToBottom_wf le hTot hTrans (h.size - 1)
      (fun k => if k = 0 then h.data (h.size - 1) else h.data k)
      (by omega) hdinv
    constructor
    · exact hw
    · intro i hi
      obtain ⟨j, hj, hval⟩ := hm i hi
      by_cases hj0 : j = 0
      · refine ⟨h.size - 1, by omega, ?_⟩
        show siftDownToBottom le (h.size - 1)
          (fun k => if k = 0 then h.data (h.size - 1) else h.data k) i =
            h.data (h.size - 1)
        rw [hval, hj0]
        simp
      · refine ⟨j, by omega, ?_⟩
        show siftDownToBottom le (h.size - 1)
          (fun k => if k = 0 then h.data (h.size - 1) else h.data k) i =
            h.data j
        rw [hval]
        simp [hj0]

/-! ### The `Reverse<Event>` order -/

theorem revLe_total {T : Type} :
    ∀ x y : Event T, revLe x y = true ∨ revLe y x = true := by
  intro x y
  unfold revLe
  rcases le_total y.time x.time with h | h
  · left; exact decide_eq_true h
  · right; exact decide_eq_true h

theorem revLe_trans {T : Type} :
    ∀ x y z : Event T, revLe x y = true → revLe y z = true →
      revLe x z = true := by
  intro x y z h1 h2
  unfold revLe at *
  exact decide_eq_true (le_trans (of_decide_eq_true h2) (of_decide_eq_true h1))

/-! ### Resource call return values -/

/-- `allocate_or_enqueue` either blocks (`none`) or returns the request event
unchanged. -/
theorem allocate_snd {T : Type} (res : SimpleResource T) (ev : Event T) :
    (res.allocate_or_enqueue ev).2 = none ∨
    (res.allocate_or_enqueue ev).2 = some ev := by
  unfold SimpleResource.allocate_or_enqueue
  split_ifs <;> simp

/-- A successful `release_and_schedule_next` either wakes nobody or wakes one
waiter whose time has been rewritten to the release event's time. -/
theorem release_snd {T : Type} (res : SimpleResource T) (ev : Event T)
    (res2 : SimpleResource T) (oe : Option (Event T))
    (h : res.release_and_schedule_next ev = .ok (res2, oe)) :
    oe = none ∨ ∃ w, oe = some w ∧ w.time = ev.time := by
  unfold SimpleResource.release_and_schedule_next at h
  split at h
  · cases h
    right
    exact ⟨_, rfl, rfl⟩
  · split_ifs at h
    · cases h
      left
      rfl

/-! ### Effect dispatch -/

/-- Effect dispatch never touches the trace, the clock, the step counter or
the process registry. -/
theorem dispatchEffect_frame {T : Type} (ops : SimStateOps T)
    (event : Event T) (y : T) (sim sim' : Simulation T)
    (h : dispatchEffect ops event y sim = .ok sim') :
    sim'.processed_events = sim.processed_events ∧ sim'.time = sim.time ∧
    sim'.steps = sim.steps ∧ sim'.processes = sim.processes := by
  unfold dispatchEffect at h
  split at h
  · cases h; exact ⟨rfl, rfl, rfl, rfl⟩
  · cases h; exact ⟨rfl, rfl, rfl, rfl⟩
  · -- Request
    split at h
    · simp at h
    · dsimp only at h
      split at h
      · cases h; exact ⟨rfl, rfl, rfl, rfl⟩
      · cases h; exact ⟨rfl, rfl, rfl, rfl⟩
  · -- Release
    split at h
    · simp at h
    · dsimp only at h
      split at h
      · simp at h
      · try dsimp only at h
        split at h
        · cases h; exact ⟨rfl, rfl, rfl, rfl⟩
        · cases h; exact ⟨rfl, rfl, rfl, rfl⟩
  · cases h; exact ⟨rfl, rfl, rfl, rfl⟩
  · cases h; exact ⟨rfl, rfl, rfl, rfl⟩

/-- Pushing an event no earlier than `t` onto a well-formed heap whose events
are all no earlier than `t` preserves both facts. -/
theorem heapPush_bound {T : Type} (h : RustHeap (Event T)) (x : Event T)
    (t : Time) (hwf : HeapWF revLe h.data h.size)
    (hall : ∀ i, i < h.size → t ≤ (h.data i).time) (hx : t ≤ x.time) :
    HeapWF revLe (heapPush revLe h x).data (heapPush revLe h x).size ∧
    (∀ i, i < (heapPush revLe h x).size →
      t ≤ ((heapPush revLe h x).data i).time) := by
  refine ⟨heapPush_wf revLe revLe_total revLe_trans h x hwf, ?_⟩
  intro i hi
  rw [heapPush_size] at hi
  rcases heapPush_mapsInto revLe h x i hi with h1 | ⟨j, hj, h1⟩
  · rw [h1]; exact hx
  · rw [h1]; exact hall j hj

/-- Dispatching an effect with a non-negative delta preserves the heap
invariant and never schedules an event before the current time. -/
theorem dispatchEffect_heap {T : Type} (ops : SimStateOps T)
    (event : Event T) (y : T) (sim sim' : Simulation T)
    (hwf : HeapWF revLe sim.future_events.data sim.future_events.size)
    (hall : ∀ i, i < sim.future_events.size →
      sim.time ≤ (sim.future_events.data i).time)
    (heff : effNonNeg (ops.get_effect y))
    (h : dispatchEffect ops event y sim = .ok sim') :
    HeapWF revLe sim'.future_events.data sim'.future_events.size ∧
    (∀ i, i < sim'.future_events.size →
      sim.time ≤ (sim'.future_events.data i).time) := by
  unfold dispatchEffect at h
  split at h
  · -- TimeOut
    rename_i t heq
    rw [heq] at heff
    simp only [effNonNeg] at heff
    cases h
    exact heapPush_bound sim.future_events _ sim.time hwf hall
      (by simp; linarith)
  · -- Event
    rename_i t p heq
    rw [heq] at heff
    simp only [effNonNeg] at heff
    cases h
    exact heapPush_bound sim.future_events _ sim.time hwf hall
      (by simp; linarith)
  · -- Request
    split at h
    · simp at h
    · rename_i res hres
      dsimp only at h
      split at h
      · rename_i e heq2
        have he : e = ⟨sim.time, event.process, y⟩ := by
          rcases allocate_snd res ⟨sim.time, event.process, y⟩ with h1 | h1 <;>
            rw [h1] at heq2
          · cases heq2
          · exact (Option.some.inj heq2).symm
        cases h
        exact heapPush_bound sim.future_events e sim.time hwf hall
          (by rw [he])
      · cases h
        exact ⟨hwf, hall⟩
  · -- Release
    split at h
    · simp at h
    · rename_i res hres
      dsimp only at h
      split at h
      · simp at h
      · rename_i out heq2
        try dsimp only at h
        split at h
        · rename_i e heq3
          have he : e.time = sim.time := by
            rcases release_snd res ⟨sim.time, event.process, y⟩ out.1 out.2
                (by rw [heq2]) with h1 | ⟨w, hw, hwt⟩
            · rw [h1] at heq3; cases heq3
            · rw [hw] at heq3
              rw [← Option.some.inj heq3]
              exact hwt
          obtain ⟨hwf1, hall1⟩ :=
            heapPush_bound sim.future_events e sim.time hwf hall (le_of_eq he.symm)
          cases h
          exact heapPush_bound _ ⟨sim.time, event.process, y⟩ sim.time hwf1
            hall1 (le_refl _)
        · obtain ⟨hwf1, hall1⟩ := And.intro hwf hall
          cases h
          exact heapPush_bound sim.future_events
            ⟨sim.time, event.process, y⟩ sim.time hwf1 hall1 (le_refl _)
  · -- Wait
    cases h
    exact ⟨hwf, hall⟩
  · -- Trace
    cases h
    exact heapPush_bound sim.future_events ⟨sim.time, event.process, y⟩
      sim.time hwf hall (le_refl _)

/-! ### Anatomy of `step` -/

/-- Logging touches only the trace. -/
theorem log_frame {T : Type} (ops : SimStateOps T) (s : Simulation T)
    (e : Event T) (y : T) :
    (log_processed_event ops s e y).future_events = s.future_events ∧
    (log_processed_event ops s e y).time = s.time ∧
    (log_processed_event ops s e y).processes = s.processes ∧
    (log_processed_event ops s e y).steps = s.steps := by
  unfold log_processed_event
  split_ifs <;> exact ⟨rfl, rfl, rfl, rfl⟩

/-- `step` on an empty queue is the source's `None => {}` arm: only the step
counter changes. -/
theorem step_empty {T : Type} (ops : SimStateOps T) (sim : Simulation T)
    (h0 : sim.future_events.size = 0) :
    step ops sim = .ok { sim with steps := sim.steps + 1 } := by
  unfold step
  dsimp only
  rw [heapPop_empty revLe sim.future_events h0]

/-- Complete case analysis of a successful `step`: either the queue was
empty, or an event was popped and the process either completed or yielded,
in which case the result is the dispatch of the yielded effect on the
logged intermediate state. -/
theorem step_anatomy {T : Type} (ops : SimStateOps T) (sim sim' : Simulation T)
    (h : step ops sim = .ok sim') :
    (stepPopped sim = none ∧ sim' = { sim with steps := sim.steps + 1 }) ∨
    (∃ event, stepPopped sim = some event ∧
      ∃ pf hist, sim.processes.get? event.process = some (some (pf, hist)) ∧
        ((pf (hist ++ [⟨event.time, event.state⟩]) = .complete ∧
            stepYield sim = none ∧
            sim' = { sim with
                     steps := sim.steps + 1, time := event.time,
                     future_events := (heapPop revLe sim.future_events).1,
                     processes := sim.processes.set event.process none }) ∨
         (∃ y, pf (hist ++ [⟨event.time, event.state⟩]) = .yielded y ∧
            stepYield sim = some y ∧
            dispatchEffect ops event y
              (log_processed_event ops
                { sim with
                  steps := sim.steps + 1, time := event.time,
                  future_events := (heapPop revLe sim.future_events).1,
                  processes :=
                    sim.processes.set event.process
                      (some (pf, hist ++ [⟨event.time, event.state⟩])) }
                event y) = .ok sim'))) := by
  unfold step at h
  dsimp only at h
  split at h
  · rename_i fst heq
    left
    cases h
    exact ⟨by rw [stepPopped, heq], rfl⟩
  · rename_i h1 event heq
    right
    refine ⟨event, by rw [stepPopped, heq], ?_⟩
    split at h
    · simp at h
    · simp at h
    · rename_i pf hist hproc2
      refine ⟨pf, hist, hproc2, ?_⟩
      try dsimp only at h
      split at h
      · rename_i hgen
        left
        cases h
        refine ⟨hgen, ?_, ?_⟩
        · simp only [stepYield]
          rw [heq]
          dsimp only
          rw [hproc2]
          dsimp only
          rw [hgen]
        · rw [heq]
      · rename_i y hgen
        right
        refine ⟨y, hgen, ?_, ?_⟩
        · simp only [stepYield]
          rw [heq]
          dsimp only
          rw [hproc2]
          dsimp only
          rw [hgen]
        · rw [heq]
          exact h

/-- Exact trace growth of one `step`: the popped event paired with the
yielded state is appended iff the yielded state opts into logging; nothing
else ever reaches the trace. -/
theorem step_trace_eq {T : Type} (ops : SimStateOps T) (sim sim' : Simulation T)
    (h : step ops sim = .ok sim') :
    sim'.processed_events = sim.processed_events ++
      (match stepPopped sim, stepYield sim with
       | some e, some y => if ops.should_log y then [(e, y)] else []
       | _, _ => []) := by
  rcases step_anatomy ops sim sim' h with ⟨hp, rfl⟩ |
    ⟨event, hp, pf, hist, hproc, hcase⟩
  · rw [hp]
    simp
  · rcases hcase with ⟨hgen, hy, rfl⟩ | ⟨y, hgen, hy, hdisp⟩
    · rw [hp, hy]
      simp
    · rw [hp, hy]
      obtain ⟨hpe, _, _, _⟩ := dispatchEffect_frame _ _ _ _ _ hdisp
      rw [hpe]
      unfold log_processed_event
      split_ifs with hsl <;> simp [hsl]

/-- The event popped by `step` from a well-formed queue has minimal time
among all queued events. -/
theorem step_popped_min {T : Type} (sim : Simulation T) (e : Event T)
    (hwf : HeapWF revLe sim.future_events.data sim.future_events.size)
    (hp : stepPopped sim = some e) :
    ∀ i, i < sim.future_events.size →
      e.time ≤ (sim.future_events.data i).time := by
  have hpos : 0 < sim.future_events.size := by
    by_contra hc
    have h0 : sim.future_events.size = 0 := by omega
    rw [stepPopped, heapPop_empty revLe _ h0] at hp
    simp at hp
  obtain ⟨hsome, _⟩ := heapPop_some revLe sim.future_events hpos
  have he : e = sim.future_events.data 0 := by
    rw [stepPopped] at hp
    rw [hp] at hsome
    exact Option.some.inj hsome
  intro i hi
  have hle := heapWF_le_root revLe revLe_total revLe_trans hwf i hi
  rw [he]
  unfold revLe at hle
  exact of_decide_eq_true hle

/-- One successful `step` from a state satisfying the engine invariant, all
of whose processes yield only non-negative deltas, does not decrease the
simulation time and preserves both properties. -/
theorem step_mono {T : Type} (ops : SimStateOps T) (sim sim' : Simulation T)
    (hinv : SimInv sim) (hnn : SimNonNeg ops sim)
    (h : step ops sim = .ok sim') :
    sim.time ≤ sim'.time ∧ SimInv sim' ∧ SimNonNeg ops sim' := by
  obtain ⟨hwf, hall⟩ := hinv
  rcases step_anatomy ops sim sim' h with ⟨hp, rfl⟩ |
    ⟨event, hp, pf, hist, hproc, hcase⟩
  · exact ⟨le_refl _, ⟨hwf, hall⟩, hnn⟩
  · have hpos : 0 < sim.future_events.size := by
      by_contra hc
      have h0 : sim.future_events.size = 0 := by omega
      rw [stepPopped, heapPop_empty revLe _ h0] at hp
      simp at hp
    obtain ⟨hsome, hsize⟩ := heapPop_some revLe sim.future_events hpos
    have hevent : event = sim.future_events.data 0 := by
      rw [stepPopped] at hp
      rw [hp] at hsome
      exact Option.some.inj hsome
    have htime : sim.time ≤ event.time := by
      rw [hevent]
      exact hall 0 hpos
    have hroot : ∀ i, i < sim.future_events.size →
        event.time ≤ (sim.future_events.data i).time := by
      intro i hi
      have hle := heapWF_le_root revLe revLe_total revLe_trans hwf i hi
      rw [hevent]
      unfold revLe at hle
      exact of_decide_eq_true hle
    obtain ⟨hwf1, hmaps1⟩ :=
      heapPop_wf revLe revLe_total revLe_trans sim.future_events hwf hpos
    have hwf1' : HeapWF revLe (heapPop revLe sim.future_events).1.data
        (heapPop revLe sim.future_events).1.size := by
      rw [hsize]
      exact hwf1
    have hall1 : ∀ i, i < (heapPop revLe sim.future_events).1.size →
        event.time ≤ ((heapPop revLe sim.future_events).1.data i).time := by
      intro i hi
      rw [hsize] at hi
      obtain ⟨j, hj, hval⟩ := hmaps1 i hi
      rw [hval]
      exact hroot j hj
    have hmem : some (pf, hist) ∈ sim.processes := List.get?_mem hproc
    have hnnp : NonNegProc ops pf := hnn _ hmem pf hist rfl
    rcases hcase with ⟨hgen, hy, rfl⟩ | ⟨y, hgen, hy, hdisp⟩
    · -- completed: tombstone, nothing scheduled
      refine ⟨htime, ⟨hwf1', hall1⟩, ?_⟩
      intro entry hmementry pf' hist' heqentry
      rcases List.mem_or_eq_of_mem_set hmementry with hm | hm
      · exact hnn entry hm pf' hist' heqentry
      · rw [hm] at heqentry
        cases heqentry
    · -- yielded: log, then dispatch
      have heff : effNonNeg (ops.get_effect y) := by
        have hspec := hnnp (hist ++ [⟨event.time, event.state⟩])
        rw [hgen] at hspec
        exact hspec
      obtain ⟨hfr1, hfr2, hfr3, hfr4⟩ := log_frame ops
        { sim with
          steps := sim.steps + 1, time := event.time,
          future_events := (heapPop revLe sim.future_events).1,
          processes :=
            sim.processes.set event.process
              (some (pf, hist ++ [⟨event.time, event.state⟩])) } event y
      obtain ⟨hdwf, hdall⟩ := dispatchEffect_heap ops event y _ sim'
        (by rw [hfr1]; exact hwf1') (by rw [hfr1, hfr2]; exact hall1)
        heff hdisp
      obtain ⟨_, hft, _, hfp⟩ := dispatchEffect_frame _ _ _ _ _ hdisp
      have htime' : sim'.time = event.time := by rw [hft, hfr2]
      refine ⟨by rw [htime']; exact htime, ⟨hdwf, ?_⟩, ?_⟩
      · intro i hi
        rw [htime']
        have := hdall i hi
        rwa [hfr2] at this
      · intro entry hmementry pf' hist' heqentry
        rw [hfp, hfr3] at hmementry
        rcases List.mem_or_eq_of_mem_set hmementry with hm | hm
        · exact hnn entry hm pf' hist' heqentry
        · rw [hm] at heqentry
          have hpf : pf' = pf := by
            have hpair := Option.some.inj heqentry
            exact (congrArg Prod.fst hpair).symm
          rw [hpf]
          exact hnnp

/-- `schedule_event` pushes exactly the event `(time, process, state)` with
the `time` argument stored as given. -/
theorem schedule_event_spec {T : Type} (sim : Simulation T) (t : Time)
    (p : ProcessId) (s : T) :
    (sim.schedule_event t p s).future_events.size =
      sim.future_events.size + 1 ∧
    heapContains (sim.schedule_event t p s).future_events ⟨t, p, s⟩ ∧
    (∀ i, i < (sim.schedule_event t p s).future_events.size →
      (sim.schedule_event t p s).future_events.data i = ⟨t, p, s⟩ ∨
      ∃ j, j < sim.future_events.size ∧
        (sim.schedule_event t p s).future_events.data i =
          sim.future_events.data j) := by
  refine ⟨heapPush_size revLe sim.future_events ⟨t, p, s⟩,
    heapPush_contains revLe sim.future_events ⟨t, p, s⟩, ?_⟩
  intro i hi
  rw [show (sim.schedule_event t p s).future_events.size =
    sim.future_events.size + 1 from rfl] at hi
  exact heapPush_mapsInto revLe sim.future_events ⟨t, p, s⟩ i hi

/-- When the resumed process yields `TimeOut(dt)`, a successful `step`
enqueues the event `(popped.time + dt, popped.process, yielded state)` —
for every `dt`, negative values included. -/
theorem step_timeout_enqueues {T : Type} (ops : SimStateOps T)
    (sim sim' : Simulation T) (e : Event T) (y : T) (dt : Time)
    (hp : stepPopped sim = some e) (hy : stepYield sim = some y)
    (heff : ops.get_effect y = .timeOut dt) (h : step ops sim = .ok sim') :
    heapContains sim'.future_events ⟨e.time + dt, e.process, y⟩ := by
  rcases step_anatomy ops sim sim' h with ⟨hp0, _⟩ |
    ⟨event, hp2, pf, hist, hproc, hcase⟩
  · rw [hp0] at hp
    cases hp
  · have hee : event = e := by
      rw [hp2] at hp
      exact Option.some.inj hp
    subst hee
    rcases hcase with ⟨hgen, hy0, _⟩ | ⟨y0, hgen, hy0, hdisp⟩
    · rw [hy0] at hy
      cases hy
    · have hyy : y0 = y := by
        rw [hy0] at hy
        exact Option.some.inj hy
      rw [hyy] at hdisp
      unfold dispatchEffect at hdisp
      rw [heff] at hdisp
      cases hdisp
      have hx : (log_processed_event ops
          { sim with
            steps := sim.steps + 1, time := event.time,
            future_events := (heapPop revLe sim.future_events).1,
            processes :=
              sim.processes.set event.process
                (some (pf, hist ++ [⟨event.time, event.state⟩])) }
          event y).time = event.time := (log_frame ops _ event y).2.1
      rw [show (⟨event.time + dt, event.process, y⟩ : Event T) =
          ⟨(log_processed_event ops
              { sim with
                steps := sim.steps + 1, time := event.time,
                future_events := (heapPop revLe sim.future_events).1,
                processes :=
                  sim.processes.set event.process
                    (some (pf, hist ++ [⟨event.time, event.state⟩])) }
              event y).time + dt, event.process, y⟩ from by rw [hx]]
      exact heapPush_contains revLe _ _

/-- When the resumed process yields `Effect::Event { time := dt, process }`,
a successful `step` enqueues the event `(dt + popped.time, process, yielded
state)`: the field is a delta added to the current simulation time. -/
theorem step_event_enqueues {T : Type} (ops : SimStateOps T)
    (sim sim' : Simulation T) (e : Event T) (y : T) (dt : Time)
    (tgt : ProcessId)
    (hp : stepPopped sim = some e) (hy : stepYield sim = some y)
    (heff : ops.get_effect y = .event dt tgt) (h : step ops sim = .ok sim') :
    heapContains sim'.future_events ⟨dt + e.time, tgt, y⟩ := by
  rcases step_anatomy ops sim sim' h with ⟨hp0, _⟩ |
    ⟨event, hp2, pf, hist, hproc, hcase⟩
  · rw [hp0] at hp
    cases hp
  · have hee : event = e := by
      rw [hp2] at hp
      exact Option.some.inj hp
    subst hee
    rcases hcase with ⟨hgen, hy0, _⟩ | ⟨y0, hgen, hy0, hdisp⟩
    · rw [hy0] at hy
      cases hy
    · have hyy : y0 = y := by
        rw [hy0] at hy
        exact Option.some.inj hy
      rw [hyy] at hdisp
      unfold dispatchEffect at hdisp
      rw [heff] at hdisp
      cases hdisp
      have hx : (log_processed_event ops
          { sim with
            steps := sim.steps + 1, time := event.time,
            future_events := (heapPop revLe sim.future_events).1,
            processes :=
              sim.processes.set event.process
                (some (pf, hist ++ [⟨event.time, event.state⟩])) }
          event y).time = event.time := (log_frame ops _ event y).2.1
      rw [show (⟨dt + event.time, tgt, y⟩ : Event T) =
          ⟨dt + (log_processed_event ops
              { sim with
                steps := sim.steps + 1, time := event.time,
                future_events := (heapPop revLe sim.future_events).1,
                processes :=
                  sim.processes.set event.process
                    (some (pf, hist ++ [⟨event.time, event.state⟩])) }
              event y).time, tgt, y⟩ from by rw [hx]]
      exact heapPush_contains revLe _ _

/-! ### Bounded store lemmas (spec-modelled, see §4.6) -/

/-- With no consumer waiting and enough room, a sequence of pushes appends
the values to the buffer in order. -/
theorem pushAll_buffered {V : Type} (p : ProcessId) :
    ∀ (vs : List V) (s : SimpleStore V), s.pending_consumers = [] →
      s.buffer.length + vs.length ≤ s.capacity →
      s.pushAll p vs = { s with buffer := s.buffer ++ vs } := by
  intro vs
  induction vs with
  | nil =>
    intro s h1 h2
    simp [SimpleStore.pushAll]
  | cons v vs ih =>
    intro s h1 h2
    have hlen : s.buffer.length < s.capacity := by
      simp at h2
      omega
    have hpush : s.push p v = ({ s with buffer := s.buffer ++ [v] },
        .buffered) := by
      unfold SimpleStore.push
      rw [h1]
      rw [if_pos hlen]
    have hfold : s.pushAll p (v :: vs) =
        SimpleStore.pushAll (s.push p v).1 p vs := rfl
    rw [hfold, hpush]
    rw [ih { s with buffer := s.buffer ++ [v] } h1 (by simp; simp at h2; omega)]
    simp

/-- With no producer waiting, `n` pops return the first `n` buffered values
in order. -/
theorem popN_take {V : Type} (c : ProcessId) :
    ∀ (n : Nat) (s : SimpleStore V), s.pending_producers = [] →
      n ≤ s.buffer.length → (s.popN c n).2 = s.buffer.take n := by
  intro n
  induction n with
  | zero =>
    intro s h1 h2
    simp [SimpleStore.popN]
  | succ n ih =>
    intro s h1 h2
    match hbuf : s.buffer with
    | [] =>
      rw [hbuf] at h2
      simp at h2
    | v :: rest =>
      have hpop : s.pop c = ({ s with buffer := rest }, some v) := by
        unfold SimpleStore.pop
        rw [hbuf, h1]
      have hunf : (s.popN c (n + 1)).2 =
          (s.pop c).2.toList ++ ((s.pop c).1.popN c n).2 := rfl
      rw [hunf, hpop]
      rw [ih { s with buffer := rest } h1 (by
        rw [hbuf] at h2
        simpa using Nat.le_of_succ_le_succ h2)]
      simp

/-! ### Claim C1 -/

/-- C1 (as stated, refuted): one process yielding `TimeOut(-3.0)` scheduled
at absolute time 5 makes two consecutive `step()` calls succeed with
`time()` going from 5 to 2 — simulation time is not monotone
non-decreasing, and the popped events' times decrease. -/
theorem C1_counterexample :
    step simStateEffectOps c1sim0 = .ok c1sim1 ∧
    step simStateEffectOps c1sim1 = .ok c1sim2 ∧
    c1sim1.time = 5 ∧ c1sim2.time = 2 ∧ ¬c1sim1.time ≤ c1sim2.time :=
  ⟨rfl, rfl, by decide, by decide, by decide⟩

/-- C1 (amended): provided every queued event is at a time no earlier than
the current simulation time, the queue is a well-formed binary heap, and
every live process only ever yields effects with non-negative deltas, a
successful `step()` never decreases `time()` and preserves all three
properties (so time is monotone along any such run). -/
theorem C1_time_monotone {T : Type} (ops : SimStateOps T)
    (sim sim' : Simulation T) (hinv : SimInv sim) (hnn : SimNonNeg ops sim)
    (h : step ops sim = .ok sim') :
    sim.time ≤ sim'.time ∧ SimInv sim' ∧ SimNonNeg ops sim' :=
  step_mono ops sim sim' hinv hnn h

/-- The non-negative-delta hypothesis holds for the one-process simulation
`c1good` whose generator always yields `TimeOut(1.0)`. -/
theorem c1good_nonneg : SimNonNeg simStateEffectOps c1good := by
  intro entry hmem pf hist heqentry
  have hproc : c1good.processes = [some (pfGood, [])] := rfl
  rw [hproc, List.mem_singleton] at hmem
  rw [hmem] at heqentry
  have hpf : pf = pfGood := by
    have hpair := Option.some.inj heqentry
    exact (congrArg Prod.fst hpair).symm
  rw [hpf]
  intro hist2
  show effNonNeg (simStateEffectOps.get_effect (Effect.timeOut 1))
  norm_num [simStateEffectOps, effNonNeg]

theorem C1_witness : c1good.time ≤ c1goodAfter.time :=
  (C1_time_monotone simStateEffectOps c1good c1goodAfter
    (by constructor
        · decide
        · decide)
    c1good_nonneg rfl).1

/-! ### Claim C2 -/

/-- C2 (as stated, refuted): four events all at time 0 are enqueued via
`schedule_event` for processes 0, 1, 2, 3 in that order (their array slots
after the pushes are exactly that sequence); after two steps the trace shows
that process 0 and then process 2 were resumed — the event for process 1,
enqueued before the one for process 2 with the same time, was not popped
first, so equal-time events are not served FIFO. -/
theorem C2_counterexample :
    c2sim0.future_events.size = 4 ∧
    c2sim0.future_events.data 0 = ⟨0, 0, .wait⟩ ∧
    c2sim0.future_events.data 1 = ⟨0, 1, .wait⟩ ∧
    c2sim0.future_events.data 2 = ⟨0, 2, .wait⟩ ∧
    c2sim0.future_events.data 3 = ⟨0, 3, .wait⟩ ∧
    stepN simStateEffectOps 2 c2sim0 = .ok c2sim2 ∧
    c2sim2.processed_events.map (fun pr => pr.1.process) = [0, 2] :=
  ⟨rfl, by decide, by decide, by decide, by decide, rfl, by decide⟩

/-- C2 (amended): `step()` pops an event of minimal time among all queued
events, but among equal-time events the order is the binary-heap layout
order, which is not FIFO (an event enqueued later may be popped first, see
`C2_counterexample`). -/
theorem C2_pop_minimal {T : Type} (sim : Simulation T) (e : Event T)
    (hwf : HeapWF revLe sim.future_events.data sim.future_events.size)
    (hp : stepPopped sim = some e) :
    ∀ i, i < sim.future_events.size →
      e.time ≤ (sim.future_events.data i).time :=
  step_popped_min sim e hwf hp

theorem C2_witness :
    ((⟨0, 0, .wait⟩ : Event Effect)).time ≤
      (c2sim0.future_events.data 1).time :=
  C2_pop_minimal c2sim0 ⟨0, 0, .wait⟩ (by decide) (by decide) 1 (by decide)

/-! ### Claim C3 -/

/-- C3: `schedule_event(time, process, state)` inserts exactly the event
`(time, process, state)` — the first argument is stored as absolute
simulation time, for every current simulation state — whereas a yielded
`Effect::Event { time := dt, process }` makes `step()` enqueue the event at
`dt + now`, where `now` is the popped event's time: the field is a delta
added to the current simulation time. -/
theorem C3_absolute_vs_delta {T : Type} :
    (∀ (sim : Simulation T) (t : Time) (p : ProcessId) (s : T),
      heapContains (sim.schedule_event t p s).future_events ⟨t, p, s⟩ ∧
      (sim.schedule_event t p s).future_events.size =
        sim.future_events.size + 1) ∧
    (∀ (ops : SimStateOps T) (sim sim' : Simulation T) (e : Event T) (y : T)
      (dt : Time) (tgt : ProcessId),
      stepPopped sim = some e → stepYield sim = some y →
      ops.get_effect y = .event dt tgt → step ops sim = .ok sim' →
      heapContains sim'.future_events ⟨dt + e.time, tgt, y⟩) := by
  constructor
  · intro sim t p s
    obtain ⟨h1, h2, _⟩ := schedule_event_spec sim t p s
    exact ⟨h2, h1⟩
  · intro ops sim sim' e y dt tgt hp hy heff h
    exact step_event_enqueues ops sim sim' e y dt tgt hp hy heff h

theorem C3_witness :
    heapContains (c1sim0.schedule_event 7 0 Effect.wait).future_events
      ⟨7, 0, .wait⟩ ∧
    heapContains c3sim1.future_events
      ⟨2 + (⟨1, 0, Effect.wait⟩ : Event Effect).time, 0, Effect.event 2 0⟩ :=
  ⟨(C3_absolute_vs_delta.1 c1sim0 7 0 Effect.wait).1,
   C3_absolute_vs_delta.2 simStateEffectOps c3sim0 c3sim1 ⟨1, 0, .wait⟩
     (.event 2 0) 2 0 (by decide) (by decide) rfl rfl⟩

/-! ### Claim C4 -/

/-- C4 (as stated, refuted): on a fresh simulation with an empty queue,
`step()` succeeds and the step counter goes from 0 to 1 — the counter is
incremented even though no event was processed. -/
theorem C4_counterexample :
    step simStateEffectOps c4sim = .ok { c4sim with steps := 1 } ∧
    c4sim.steps = 0 ∧ c4sim.future_events.size = 0 :=
  ⟨rfl, rfl, rfl⟩

/-- C4 (amended): if the future-event queue is empty, `step()` leaves the
time, the trace, the process registry and the resources unchanged, but it
does increment the step counter — `steps += 1` precedes the pop — so
`EndCondition::NSteps(N)` counts every `step()` call, empty no-ops
included. -/
theorem C4_empty_step {T : Type} (ops : SimStateOps T) (sim : Simulation T)
    (h0 : sim.future_events.size = 0) (n : Nat) :
    step ops sim = .ok { sim with steps := sim.steps + 1 } ∧
    check_ending_condition { sim with steps := sim.steps + 1 }
      (.NSteps n) = (sim.steps + 1 == n) :=
  ⟨step_empty ops sim h0, rfl⟩

theorem C4_witness :
    step simStateEffectOps c4sim = .ok { c4sim with steps := c4sim.steps + 1 } ∧
    check_ending_condition { c4sim with steps := c4sim.steps + 1 }
      (.NSteps 1) = (c4sim.steps + 1 == 1) :=
  C4_empty_step simStateEffectOps c4sim rfl 1

/-! ### Claim C5 -/

/-- C5 (as stated, refuted): a process yielding `TimeOut(-1.0)` at time 4
does not make `step()` fail; the step succeeds and an event at time
`4 + (-1) = 3` — in the past — is enqueued.  There is no negativity check in
the `Effect::TimeOut` arm. -/
theorem C5_counterexample :
    step simStateEffectOps c5sim0 = .ok c5sim1 ∧
    c5sim1.time = 4 ∧ c5sim1.future_events.size = 1 ∧
    c5sim1.future_events.data 0 = ⟨3, 0, .timeOut (-1)⟩ ∧
    (3 : Time) < 4 :=
  ⟨rfl, by decide, rfl, by decide, by decide⟩

/-- C5 (amended): for every yielded `Effect::TimeOut(dt)` — any `dt`,
negative included — a successful `step()` enqueues the event
`(now + dt, same process, yielded state)`; a negative `dt` is not a fatal
error, it silently schedules the event in the past. -/
theorem C5_timeout_enqueues {T : Type} (ops : SimStateOps T)
    (sim sim' : Simulation T) (e : Event T) (y : T) (dt : Time)
    (hp : stepPopped sim = some e) (hy : stepYield sim = some y)
    (heff : ops.get_effect y = .timeOut dt) (h : step ops sim = .ok sim') :
    heapContains sim'.future_events ⟨e.time + dt, e.process, y⟩ :=
  step_timeout_enqueues ops sim sim' e y dt hp hy heff h

theorem C5_witness :
    heapContains c5sim1.future_events
      ⟨(⟨4, 0, Effect.wait⟩ : Event Effect).time + (-1), 0,
        Effect.timeOut (-1)⟩ :=
  C5_timeout_enqueues simStateEffectOps c5sim0 c5sim1 ⟨4, 0, .wait⟩
    (.timeOut (-1)) (-1) (by decide) (by decide) rfl rfl

/-! ### Claim C6 -/

/-- C6: `allocate_or_enqueue` grants (decrementing `available`, returning the
request event unchanged) exactly when `available > 0` and otherwise appends
the request to the tail of the FIFO wait queue returning `None`;
`release_and_schedule_next` with a non-empty queue pops the head waiter,
rewrites its time to the release event's time and returns it, and with an
empty queue (and spare capacity) increments `available` returning `None` —
so blocked requesters are granted in exactly request order. -/
theorem C6_simple_resource {T : Type} :
    (∀ (res : SimpleResource T) (ev : Event T), 0 < res.available →
      res.allocate_or_enqueue ev =
        ({ res with available := res.available - 1 }, some ev)) ∧
    (∀ (res : SimpleResource T) (ev : Event T), res.available = 0 →
      res.allocate_or_enqueue ev =
        ({ res with queue := res.queue ++ [ev] }, none)) ∧
    (∀ (res : SimpleResource T) (ev w : Event T) (rest : List (Event T)),
      res.queue = w :: rest →
      res.release_and_schedule_next ev =
        .ok ({ res with queue := rest }, some { w with time := ev.time })) ∧
    (∀ (res : SimpleResource T) (ev : Event T), res.queue = [] →
      res.available < res.quantity →
      res.release_and_schedule_next ev =
        .ok ({ res with available := res.available + 1 }, none)) := by
  refine ⟨?_, ?_, ?_, ?_⟩
  · intro res ev h
    unfold SimpleResource.allocate_or_enqueue
    rw [if_pos h]
  · intro res ev h
    unfold SimpleResource.allocate_or_enqueue
    rw [if_neg (by omega)]
  · intro res ev w rest hq
    unfold SimpleResource.release_and_schedule_next
    rw [hq]
  · intro res ev hq h
    unfold SimpleResource.release_and_schedule_next
    rw [hq, if_pos h]

theorem C6_witness :
    (⟨1, 1, []⟩ : SimpleResource Effect).allocate_or_enqueue ⟨0, 0, .wait⟩ =
      (⟨1, 0, []⟩, some ⟨0, 0, .wait⟩) ∧
    (⟨1, 0, []⟩ : SimpleResource Effect).allocate_or_enqueue ⟨0, 0, .wait⟩ =
      (⟨1, 0, [⟨0, 0, .wait⟩]⟩, none) ∧
    (⟨1, 0, [⟨5, 1, .wait⟩]⟩ :
        SimpleResource Effect).release_and_schedule_next ⟨9, 2, .wait⟩ =
      .ok (⟨1, 0, []⟩, some ⟨9, 1, .wait⟩) ∧
    (⟨2, 1, []⟩ : SimpleResource Effect).release_and_schedule_next
        ⟨0, 0, .wait⟩ =
      .ok (⟨2, 2, []⟩, none) :=
  ⟨C6_simple_resource.1 (⟨1, 1, []⟩ : SimpleResource Effect)
     (⟨0, 0, .wait⟩ : Event Effect) (by decide),
   C6_simple_resource.2.1 (⟨1, 0, []⟩ : SimpleResource Effect)
     (⟨0, 0, .wait⟩ : Event Effect) rfl,
   C6_simple_resource.2.2.1 (⟨1, 0, [⟨5, 1, .wait⟩]⟩ : SimpleResource Effect)
     (⟨9, 2, .wait⟩ : Event Effect) ⟨5, 1, .wait⟩ [] rfl,
   C6_simple_resource.2.2.2 (⟨2, 1, []⟩ : SimpleResource Effect)
     (⟨0, 0, .wait⟩ : Event Effect) rfl (by decide)⟩

/-! ### Claim C7 -/

/-- C7: a `SimpleResource` starts with `available = capacity`; both resource
operations keep `available ≤ capacity` (its lower bound 0 holds because
`available` is a `usize`), and a release arriving with no queued waiter when
`available` already equals the capacity fails the
`assert!(available < quantity)` — a fatal error rather than an increment
beyond the capacity. -/
theorem C7_available_bounds {T : Type} :
    (∀ C : Nat, (SimpleResource.new C : SimpleResource T).available = C ∧
      (SimpleResource.new C : SimpleResource T).quantity = C) ∧
    (∀ (res : SimpleResource T) (ev : Event T),
      res.available ≤ res.quantity →
      (res.allocate_or_enqueue ev).1.available ≤
        (res.allocate_or_enqueue ev).1.quantity) ∧
    (∀ (res : SimpleResource T) (ev : Event T) (res2 : SimpleResource T)
      (oe : Option (Event T)), res.available ≤ res.quantity →
      res.release_and_schedule_next ev = .ok (res2, oe) →
      res2.available ≤ res2.quantity) ∧
    (∀ (res : SimpleResource T) (ev : Event T), res.queue = [] →
      res.available = res.quantity →
      res.release_and_schedule_next ev =
        .error "assertion failed: self.available < self.quantity") := by
  refine ⟨fun C => ⟨rfl, rfl⟩, ?_, ?_, ?_⟩
  · intro res ev h
    unfold SimpleResource.allocate_or_enqueue
    split_ifs with h1 <;> dsimp <;> omega
  · intro res ev res2 oe h hrel
    unfold SimpleResource.release_and_schedule_next at hrel
    split at hrel
    · cases hrel
      exact h
    · split_ifs at hrel with h2
      · cases hrel
        dsimp
        omega
  · intro res ev hq h
    unfold SimpleResource.release_and_schedule_next
    rw [hq, if_neg (by omega)]

theorem C7_witness :
    (SimpleResource.new 3 : SimpleResource Effect).available = 3 ∧
    ((⟨2, 2, []⟩ : SimpleResource Effect).allocate_or_enqueue
        ⟨0, 0, .wait⟩).1.available ≤
      ((⟨2, 2, []⟩ : SimpleResource Effect).allocate_or_enqueue
        ⟨0, 0, .wait⟩).1.quantity ∧
    (⟨2, 2, []⟩ : SimpleResource Effect).available ≤
      (⟨2, 2, []⟩ : SimpleResource Effect).quantity ∧
    (⟨2, 2, []⟩ : SimpleResource Effect).release_and_schedule_next
        ⟨0, 0, .wait⟩ =
      .error "assertion failed: self.available < self.quantity" :=
  ⟨(C7_available_bounds.1 3).1,
   C7_available_bounds.2.1 (⟨2, 2, []⟩ : SimpleResource Effect)
     (⟨0, 0, .wait⟩ : Event Effect) (by decide),
   C7_available_bounds.2.2.1 (⟨2, 1, []⟩ : SimpleResource Effect)
     (⟨0, 0, .wait⟩ : Event Effect) ⟨2, 2, []⟩ none (by decide) rfl,
   C7_available_bounds.2.2.2 (⟨2, 2, []⟩ : SimpleResource Effect)
     (⟨0, 0, .wait⟩ : Event Effect) rfl rfl⟩

/-! ### Claim C8 -/

/-- C8: a successful `step()` appends to the trace exactly the pair
`(popped event, yielded state)` when the yielded state has
`should_log() = true`, and nothing otherwise; the logging is the unique
trace modification of the step (effect dispatch never touches the trace), so
the trace is exactly the should-log-filtered list of yields in yield
order. -/
theorem C8_trace_exact {T : Type} (ops : SimStateOps T)
    (sim sim' : Simulation T) (h : step ops sim = .ok sim') :
    sim'.processed_events = sim.processed_events ++
      (match stepPopped sim, stepYield sim with
       | some e, some y => if ops.should_log y then [(e, y)] else []
       | _, _ => []) :=
  step_trace_eq ops sim sim' h

theorem C8_witness :
    c1goodAfter.processed_events =
      c1good.processed_events ++ [(⟨0, 0, .wait⟩, Effect.timeOut 1)] := by
  have h := C8_trace_exact simStateEffectOps c1good c1goodAfter rfl
  rw [h,
    show stepPopped c1good = some ⟨0, 0, .wait⟩ from by decide,
    show stepYield c1good = some (Effect.timeOut 1) from by decide]
  simp [simStateEffectOps]

/-! ### Claim C9 -/

/-- C9 (modelled from the spec, §4.6: the store implementation is not under
src/): a full store with no waiting consumer blocks a `Push` without
touching the buffer — the capacity bound is respected — and a sequence of
pushes of `vs` into a fresh store of capacity `≥ |vs|` followed by `|vs|`
pops returns exactly `vs`: FIFO round trip. -/
theorem C9_store_roundtrip {V : Type} :
    (∀ (s : SimpleStore V) (p : ProcessId) (v : V),
      s.pending_consumers = [] → s.buffer.length = s.capacity →
      (s.push p v).1.buffer = s.buffer ∧ (s.push p v).2 = .blocked) ∧
    (∀ (C : Nat) (vs : List V) (p c : ProcessId), vs.length ≤ C →
      (((SimpleStore.new V C).pushAll p vs).popN c vs.length).2 = vs) := by
  constructor
  · intro s p v h1 h2
    unfold SimpleStore.push
    rw [h1, if_neg (by omega)]
    exact ⟨rfl, rfl⟩
  · intro C vs p c hlen
    rw [pushAll_buffered p vs (SimpleStore.new V C) rfl
      (by simpa [SimpleStore.new] using hlen)]
    rw [popN_take c vs.length _ rfl (by simp [SimpleStore.new])]
    simp [SimpleStore.new]

theorem C9_witness :
    ((⟨2, [7, 8], [], []⟩ : SimpleStore Nat).push 0 9).1.buffer = [7, 8] ∧
    (((SimpleStore.new Nat 2).pushAll 0 [5, 9]).popN 1 2).2 = [5, 9] :=
  ⟨(C9_store_roundtrip.1 ⟨2, [7, 8], [], []⟩ 0 9 rfl rfl).1,
   C9_store_roundtrip.2 2 [5, 9] 0 1 (by decide)⟩

/-! ### Claim C10 -/

/-- C10: the crate's `impl SimState for Effect` has `should_log` constantly
`true`, `get_effect` the identity and `set_effect` overwrite (so
`get_effect` after `set_effect e` yields `e`); consequently, in a simulation
whose state carrier is `Effect` itself, every step whose process yielded
appends its `(event, yielded state)` pair to the trace — filtering never
drops an entry. -/
theorem C10_effect_state :
    (∀ e : Effect, simStateEffectOps.should_log e = true) ∧
    (∀ e : Effect, simStateEffectOps.get_effect e = e) ∧
    (∀ s e : Effect, simStateEffectOps.set_effect s e = e) ∧
    (∀ (sim sim' : Simulation Effect) (e : Event Effect) (y : Effect),
      stepPopped sim = some e → stepYield sim = some y →
      step simStateEffectOps sim = .ok sim' →
      sim'.processed_events = sim.processed_events ++ [(e, y)]) := by
  refine ⟨fun _ => rfl, fun _ => rfl, fun _ _ => rfl, ?_⟩
  intro sim sim' e y hp hy h
  have ht := step_trace_eq simStateEffectOps sim sim' h
  rw [hp, hy] at ht
  simpa [simStateEffectOps] using ht

theorem C10_witness :
    simStateEffectOps.should_log Effect.wait = true ∧
    simStateEffectOps.get_effect Effect.trace = Effect.trace ∧
    simStateEffectOps.set_effect Effect.wait Effect.trace = Effect.trace ∧
    c3sim1.processed_events = c3sim0.processed_events ++
      [(⟨1, 0, .wait⟩, Effect.event 2 0)] :=
  ⟨C10_effect_state.1 .wait, C10_effect_state.2.1 .trace,
   C10_effect_state.2.2.1 .wait .trace,
   C10_effect_state.2.2.2 c3sim0 c3sim1 ⟨1, 0, .wait⟩ (.event 2 0)
     (by decide) (by decide) rfl⟩

end Desim
